import Mathlib

/-!
Shallow embedding of `b58uuid` (src/lib.rs): a Base58 codec for 16-byte
UUIDs.  Rust machine integers are modelled as `Nat` with explicit bounds
(`u128` arithmetic is overflow-checked in the source, modelled by explicit
`2 ^ 128 ≤ _` tests); byte strings as `List Nat` (each entry `< 256`);
Rust `&str` values as `List Char` (a Rust string is a sequence of Unicode
scalar values); `Result` as `Except`.

The Rust error variants carry formatted message strings; each message is a
fixed format applied to structured data (a position and a character, or
nothing), so the messages are modelled structurally by `B58Msg`.
-/

/-- Structural model of the distinct `InvalidBase58` message strings built
by `decode` in src/lib.rs ("Empty Base58 string",
"Invalid character at position {i}: {ch}", "Too many leading 1 characters"). -/
inductive B58Msg : Type where
  | emptyInput : B58Msg
  | invalidChar (pos : Nat) (ch : Char) : B58Msg
  | tooManyLeadingOnes : B58Msg
deriving DecidableEq, Repr

/-- Model of `B58UUIDError` (src/lib.rs lines 25-31).  `InvalidUUID` carries
the failing byte position of its "Invalid hex at position {i*2}" message. -/
inductive B58UUIDError : Type where
  | InvalidUUID (pos : Nat) : B58UUIDError
  | InvalidBase58 (msg : B58Msg) : B58UUIDError
  | InvalidLength (expected got : Nat) : B58UUIDError
  | Overflow : B58UUIDError
deriving DecidableEq, Repr

instance {ε α : Type} [DecidableEq ε] [DecidableEq α] : DecidableEq (Except ε α) := fun a b =>
  match a, b with
  | .error x, .error y =>
    if h : x = y then isTrue (by rw [h]) else isFalse (fun hc => by cases hc; exact h rfl)
  | .ok x, .ok y =>
    if h : x = y then isTrue (by rw [h]) else isFalse (fun hc => by cases hc; exact h rfl)
  | .error _, .ok _ => isFalse (fun hc => by cases hc)
  | .ok _, .error _ => isFalse (fun hc => by cases hc)

/-- The Base58 alphabet constant `BASE58_ALPHABET` (src/lib.rs line 10). -/
def BASE58_ALPHABET : String := "123456789ABCDEFGHJKLMNPQRSTUVWXYZabcdefghijkmnopqrstuvwxyz"

/-- The alphabet as a character list (all 58 symbols are ASCII). -/
def BASE58_CHARS : List Char := BASE58_ALPHABET.toList

/-- `BASE58_ALPHABET.as_bytes()[d]` for a digit `d < 58` (the default is
never used: the source only indexes with `num % 58 < 58`). -/
def b58Char (d : Nat) : Char := BASE58_CHARS.getD d '1'

/-- Model of the 256-entry `REVERSE_ALPHABET` table (src/lib.rs lines 13-22):
the table maps the byte of each alphabet symbol to its index (the alphabet
bytes are pairwise distinct, so the constructed table entry at byte `b` is
exactly the index of `b` in the alphabet) and every other byte to 255. -/
def REVERSE_ALPHABET (b : Nat) : Nat :=
  (BASE58_CHARS.findIdx? (fun c => c.toNat = b)).getD 255

/-- Digit value the decoder reads for a character: `REVERSE_ALPHABET[ch as usize]`. -/
def digitOf (c : Char) : Nat := REVERSE_ALPHABET c.toNat

/-- A character passes both decoder checks: it is ASCII
(`ch.is_ascii() && (ch as usize) < 256`, which for a Unicode scalar is
exactly `toNat < 128`) and the table does not mark it invalid. -/
def validChar (c : Char) : Bool := decide (c.toNat < 128) && decide (¬ digitOf c = 255)

/-- The leading-zero-byte count of `encode` (src/lib.rs lines 71-78):
length of the initial run of zero bytes. -/
def countLeadingZeroBytes : List Nat → Nat
  | [] => 0
  | b :: rest => if b = 0 then countLeadingZeroBytes rest + 1 else 0

/-- `u128::from_be_bytes` on a byte list: big-endian interpretation. -/
def beBytesToNat : List Nat → Nat
  | [] => 0
  | b :: rest => b * 256 ^ rest.length + beBytesToNat rest

/-- `num.to_be_bytes()` for a `w`-byte big-endian representation
(the source uses `w = 16` on a `u128`). -/
def natToBeBytes : Nat → Nat → List Nat
  | 0, _ => []
  | w + 1, n => n / 256 ^ w :: natToBeBytes w (n % 256 ^ w)

/-- The digit-emission loop of `encode` (src/lib.rs lines 89-93): repeatedly
push `BASE58_ALPHABET[num % 58]` and divide by 58 until the value is zero.
Digits come out least-significant first. -/
def toB58Rev (n : Nat) : List Char :=
  if h : n = 0 then []
  else b58Char (n % 58) :: toB58Rev (n / 58)
termination_by n
decreasing_by exact Nat.div_lt_self (Nat.pos_of_ne_zero h) (by decide)

/-- Model of `encode` (src/lib.rs lines 69-110).  The Rust code builds the
digit vector, appends one `'1'` byte per leading zero byte, reverses, and
finally left-pads with `'1'` to a minimum width of 22. -/
def encode (data : List Nat) : List Char :=
  let leading_zeros := countLeadingZeroBytes data
  if leading_zeros = 16 then List.replicate 22 '1'
  else
    let num := beBytesToNat data
    let result := (toB58Rev num ++ List.replicate leading_zeros '1').reverse
    if result.length < 22 then List.replicate (22 - result.length) '1' ++ result
    else result

/-- The leading-ones count of `decode` (src/lib.rs lines 138-145). -/
def countLeadingOnes : List Char → Nat
  | [] => 0
  | c :: rest => if c = '1' then countLeadingOnes rest + 1 else 0

/-- The character loop of `decode` (src/lib.rs lines 149-177) over the
enumerated characters: skip characters of the leading-`'1'` run, reject a
non-ASCII or non-alphabet character naming its position, and accumulate
`num * 58 + digit` with `u128` overflow checks (`checked_mul`/`checked_add`
fail exactly when the exact product/sum exceeds `2 ^ 128 - 1`). -/
def decodeLoop : List (Nat × Char) → Nat → Nat → Except B58UUIDError Nat
  | [], _, num => .ok num
  | (i, ch) :: rest, leading_ones, num =>
    if ch = '1' ∧ i < leading_ones then decodeLoop rest leading_ones num
    else if ¬ ch.toNat < 128 then .error (.InvalidBase58 (.invalidChar i ch))
    else if digitOf ch = 255 then .error (.InvalidBase58 (.invalidChar i ch))
    else if 2 ^ 128 ≤ num * 58 then .error .Overflow
    else if 2 ^ 128 ≤ num * 58 + digitOf ch then .error .Overflow
    else decodeLoop rest leading_ones (num * 58 + digitOf ch)

/-- Model of `decode` (src/lib.rs lines 130-196).  The Rust code converts
`num` to bytes before testing `leading_ones > 22`; the conversion is pure,
so the test is modelled before building the byte list. -/
def decode (b58 : List Char) : Except B58UUIDError (List Nat) :=
  if b58.isEmpty then .error (.InvalidBase58 .emptyInput)
  else
    let leading_ones := countLeadingOnes b58
    match decodeLoop (List.enumFrom 0 b58) leading_ones 0 with
    | .error e => .error e
    | .ok num =>
      if leading_ones > 22 then .error (.InvalidBase58 .tooManyLeadingOnes)
      else .ok (natToBeBytes 16 num)

/-- Model of `generate` (src/lib.rs lines 215-227) as a function of the 16
entropy bytes written by `getrandom`: force version 4
(`bytes[6] = (bytes[6] & 0x0F) | 0x40`) and variant 10
(`bytes[8] = (bytes[8] & 0x3F) | 0x80`), then encode. -/
def generate (entropy : List Nat) : List Char :=
  let b1 := entropy.set 6 (((entropy.getD 6 0).land 15).lor 64)
  let b2 := b1.set 8 (((b1.getD 8 0).land 63).lor 128)
  encode b2

/-- Pure helper for proofs: the overflow-checked accumulation of a digit
list, as performed by the non-skipped iterations of `decodeLoop`. -/
def checkedAccum : List Nat → Nat → Except B58UUIDError Nat
  | [], num => .ok num
  | d :: rest, num =>
    if 2 ^ 128 ≤ num * 58 then .error .Overflow
    else if 2 ^ 128 ≤ num * 58 + d then .error .Overflow
    else checkedAccum rest (num * 58 + d)

/-- Unchecked base-58 accumulation of a digit list from an initial value. -/
def valFold (num : Nat) (ds : List Nat) : Nat :=
  ds.foldl (fun a d => a * 58 + d) num

/-- The base-58 integer a character string stands for (leading `'1'`
characters are digit 0 and contribute nothing). -/
def impliedValue (s : List Char) : Nat := valFold 0 (s.map digitOf)

/-! ### Alphabet facts (settled by evaluation over the 58 concrete symbols) -/

theorem digitOf_b58Char : ∀ d, d < 58 → digitOf (b58Char d) = d := by decide

theorem validChar_b58Char : ∀ d, d < 58 → validChar (b58Char d) = true := by decide

theorem b58Char_ne_one : ∀ d, d < 58 → d ≠ 0 → ¬ b58Char d = '1' := by decide

theorem b58Char_mem : ∀ d, d < 58 → b58Char d ∈ BASE58_CHARS := by decide

theorem digitOf_one : digitOf '1' = 0 := by decide

/-! ### Leading-run lemmas -/

theorem countLeadingOnes_replicate_append (k : Nat) (t : List Char) :
    countLeadingOnes (List.replicate k '1' ++ t) = k + countLeadingOnes t := by
  induction k with
  | zero => simp
  | succ k ih => simp [List.replicate_succ, countLeadingOnes, ih]; omega

theorem countLeadingOnes_cons_ne {c : Char} (h : ¬ c = '1') (t : List Char) :
    countLeadingOnes (c :: t) = 0 := by
  simp [countLeadingOnes, h]

theorem replicate_append_drop (s : List Char) :
    s = List.replicate (countLeadingOnes s) '1' ++ s.drop (countLeadingOnes s) := by
  induction s with
  | nil => rfl
  | cons c t ih =>
    by_cases h : c = '1'
    · subst h
      simp only [countLeadingOnes, if_pos rfl, List.replicate_succ, List.cons_append,
        List.drop_succ_cons]
      exact congrArg _ ih
    · simp [countLeadingOnes, h]

theorem countLeadingOnes_drop (s : List Char) :
    countLeadingOnes (s.drop (countLeadingOnes s)) = 0 := by
  induction s with
  | nil => rfl
  | cons c t ih =>
    by_cases h : c = '1'
    · subst h; simpa [countLeadingOnes] using ih
    · simp [countLeadingOnes, h]

theorem countLeadingOnes_le_length (s : List Char) : countLeadingOnes s ≤ s.length := by
  induction s with
  | nil => simp [countLeadingOnes]
  | cons c t ih =>
    by_cases h : c = '1'
    · simp [countLeadingOnes, h]; omega
    · simp [countLeadingOnes, h]

/-! ### The decode loop: skipping the run, and the bridge to `checkedAccum` -/

theorem decodeLoop_skip :
    ∀ (k j : Nat) (t : List Char) (lo num : Nat), j + k ≤ lo →
      decodeLoop (List.enumFrom j (List.replicate k '1' ++ t)) lo num =
        decodeLoop (List.enumFrom (j + k) t) lo num := by
  intro k
  induction k with
  | zero => intro j t lo num _; simp
  | succ k ih =>
    intro j t lo num h
    have hj : j < lo := by omega
    simp only [List.replicate_succ, List.cons_append, List.enumFrom_cons, decodeLoop]
    rw [if_pos (⟨trivial, hj⟩ : True ∧ j < lo)]
    have := ih (j + 1) t lo num (by omega)
    simpa [Nat.add_assoc, Nat.add_comm 1 k] using this

theorem decodeLoop_valid_eq :
    ∀ (t : List Char) (j lo num : Nat), lo ≤ j → (∀ c ∈ t, validChar c = true) →
      decodeLoop (List.enumFrom j t) lo num = checkedAccum (t.map digitOf) num := by
  intro t
  induction t with
  | nil => intro j lo num _ _; rfl
  | cons c t ih =>
    intro j lo num hle hv
    have hc : validChar c = true := hv c (by simp)
    have hascii : c.toNat < 128 := by
      have := of_decide_eq_true (Bool.and_elim_left hc); exact this
    have hdig : ¬ digitOf c = 255 := by
      have := of_decide_eq_true (Bool.and_elim_right hc); exact this
    have hskip : ¬ (c = '1' ∧ j < lo) := by
      rintro ⟨-, hlt⟩; omega
    simp only [List.enumFrom_cons, decodeLoop, if_neg hskip, if_neg (not_not_intro hascii),
      if_neg hdig, List.map_cons, checkedAccum]
    split
    next h1 => rfl
    next h1 =>
      split
      next h2 => rfl
      next h2 =>
        exact ih (j + 1) lo (num * 58 + digitOf c) (by omega)
          (fun d hd => hv d (List.mem_cons_of_mem _ hd))

theorem decodeLoop_ok_valid :
    ∀ (t : List Char) (j lo num v : Nat), lo ≤ j →
      decodeLoop (List.enumFrom j t) lo num = .ok v → ∀ c ∈ t, validChar c = true := by
  intro t
  induction t with
  | nil => intro j lo num v _ _ c hc; cases hc
  | cons c t ih =>
    intro j lo num v hle hok d hd
    have hskip : ¬ (c = '1' ∧ j < lo) := by
      rintro ⟨-, hlt⟩; omega
    simp only [List.enumFrom_cons, decodeLoop, if_neg hskip] at hok
    by_cases hascii : c.toNat < 128
    · rw [if_neg (not_not_intro hascii)] at hok
      by_cases hdig : digitOf c = 255
      · rw [if_pos hdig] at hok; cases hok
      · rw [if_neg hdig] at hok
        split at hok
        · cases hok
        · split at hok
          · cases hok
          · rcases List.mem_cons.mp hd with rfl | hd2
            · simp [validChar, hascii, hdig]
            · exact ih (j + 1) lo (num * 58 + digitOf c) v (by omega) hok d hd2
    · rw [if_pos hascii] at hok; cases hok

/-! ### Checked accumulation versus the exact base-58 value -/

theorem valFold_cons (num d : Nat) (ds : List Nat) :
    valFold num (d :: ds) = valFold (num * 58 + d) ds := rfl

theorem le_valFold : ∀ (ds : List Nat) (num : Nat), num ≤ valFold num ds := by
  intro ds
  induction ds with
  | nil => intro num; exact Nat.le_refl num
  | cons d ds ih =>
    intro num
    have := ih (num * 58 + d)
    rw [valFold_cons]
    omega

theorem checkedAccum_ok :
    ∀ (ds : List Nat) (num : Nat), valFold num ds < 2 ^ 128 →
      checkedAccum ds num = .ok (valFold num ds) := by
  intro ds
  induction ds with
  | nil => intro num _; rfl
  | cons d ds ih =>
    intro num hlt
    rw [valFold_cons] at hlt ⊢
    have hstep : num * 58 + d < 2 ^ 128 := Nat.lt_of_le_of_lt (le_valFold ds _) hlt
    rw [checkedAccum, if_neg (by omega), if_neg (by omega)]
    exact ih _ hlt

theorem checkedAccum_overflow :
    ∀ (ds : List Nat) (num : Nat), num < 2 ^ 128 → 2 ^ 128 ≤ valFold num ds →
      checkedAccum ds num = .error .Overflow := by
  intro ds
  induction ds with
  | nil => intro num h1 h2; exact absurd h2 (by simp [valFold]; omega)
  | cons d ds ih =>
    intro num h1 h2
    rw [valFold_cons] at h2
    rw [checkedAccum]
    by_cases hm : 2 ^ 128 ≤ num * 58
    · rw [if_pos hm]
    · rw [if_neg hm]
      by_cases ha : 2 ^ 128 ≤ num * 58 + d
      · rw [if_pos ha]
      · rw [if_neg ha]
        exact ih _ (by omega) h2

theorem valFold_append (num : Nat) (a b : List Nat) :
    valFold num (a ++ b) = valFold (valFold num a) b := by
  simp [valFold, List.foldl_append]

theorem valFold_zero_replicate (k : Nat) : valFold 0 (List.replicate k 0) = 0 := by
  induction k with
  | zero => rfl
  | succ k ih => rw [List.replicate_succ, valFold_cons]; simpa using ih

/-! ### The digit-emission loop produces the base-58 digits of `num` -/

theorem toB58Rev_zero : toB58Rev 0 = [] := by rw [toB58Rev]; simp

theorem toB58Rev_pos (n : Nat) (h : ¬ n = 0) :
    toB58Rev n = b58Char (n % 58) :: toB58Rev (n / 58) := by
  rw [toB58Rev]; simp [h]

theorem toB58Rev_ne_nil (n : Nat) (h : ¬ n = 0) : ¬ toB58Rev n = [] := by
  rw [toB58Rev_pos n h]; simp

theorem toB58Rev_valid (n : Nat) : ∀ c ∈ toB58Rev n, validChar c = true := by
  induction n using Nat.strong_induction_on with
  | _ n ih =>
    by_cases h : n = 0
    · subst h; rw [toB58Rev_zero]; intro c hc; cases hc
    · rw [toB58Rev_pos n h]
      intro c hc
      rcases List.mem_cons.mp hc with rfl | hc2
      · exact validChar_b58Char _ (Nat.mod_lt n (by decide))
      · exact ih (n / 58) (Nat.div_lt_self (Nat.pos_of_ne_zero h) (by decide)) c hc2

theorem toB58Rev_mem_alphabet (n : Nat) : ∀ c ∈ toB58Rev n, c ∈ BASE58_CHARS := by
  induction n using Nat.strong_induction_on with
  | _ n ih =>
    by_cases h : n = 0
    · subst h; rw [toB58Rev_zero]; intro c hc; cases hc
    · rw [toB58Rev_pos n h]
      intro c hc
      rcases List.mem_cons.mp hc with rfl | hc2
      · exact b58Char_mem _ (Nat.mod_lt n (by decide))
      · exact ih (n / 58) (Nat.div_lt_self (Nat.pos_of_ne_zero h) (by decide)) c hc2

theorem toB58Rev_length_le : ∀ (k n : Nat), n < 58 ^ k → (toB58Rev n).length ≤ k := by
  intro k
  induction k with
  | zero =>
    intro n h
    have : n = 0 := by simpa using Nat.lt_one_iff.mp h
    subst this; rw [toB58Rev_zero]; simp
  | succ k ih =>
    intro n h
    by_cases h0 : n = 0
    · subst h0; rw [toB58Rev_zero]; simp
    · rw [toB58Rev_pos n h0]
      have hdiv : n / 58 < 58 ^ k := by
        have hlt : n < 58 * 58 ^ k := by
          have := pow_succ' 58 k
          omega
        exact Nat.div_lt_of_lt_mul hlt
      simpa using ih (n / 58) hdiv

theorem valFold_toB58Rev (n : Nat) :
    valFold 0 (((toB58Rev n).map digitOf).reverse) = n := by
  induction n using Nat.strong_induction_on with
  | _ n ih =>
    by_cases h : n = 0
    · subst h; rw [toB58Rev_zero]; rfl
    · rw [toB58Rev_pos n h]
      rw [List.map_cons, List.reverse_cons, valFold_append,
        ih (n / 58) (Nat.div_lt_self (Nat.pos_of_ne_zero h) (by decide)),
        digitOf_b58Char _ (Nat.mod_lt n (by decide))]
      show n / 58 * 58 + n % 58 = n
      omega

theorem toB58Rev_getLast (n : Nat) (h : ¬ n = 0) :
    ∃ d, ¬ d = 0 ∧ d < 58 ∧ (toB58Rev n).getLast? = some (b58Char d) := by
  induction n using Nat.strong_induction_on with
  | _ n ih =>
    rw [toB58Rev_pos n h]
    by_cases hq : n / 58 = 0
    · refine ⟨n % 58, ?_, Nat.mod_lt n (by decide), ?_⟩
      · have : n < 58 := by
          have := Nat.div_add_mod n 58
          omega
        rw [Nat.mod_eq_of_lt this]
        exact h
      · rw [hq, toB58Rev_zero]; rfl
    · obtain ⟨d, hd0, hd58, hlast⟩ :=
        ih (n / 58) (Nat.div_lt_self (Nat.pos_of_ne_zero h) (by decide)) hq
      refine ⟨d, hd0, hd58, ?_⟩
      obtain ⟨y, l, hyl⟩ := List.exists_cons_of_ne_nil (toB58Rev_ne_nil _ hq)
      rw [hyl]
      rw [hyl] at hlast
      simpa [List.getLast?_cons_cons] using hlast

theorem countLeadingOnes_toB58Rev_reverse (n : Nat) (h : ¬ n = 0) :
    countLeadingOnes ((toB58Rev n).reverse) = 0 := by
  obtain ⟨d, hd0, hd58, hlast⟩ := toB58Rev_getLast n h
  have hhead : ((toB58Rev n).reverse).head? = some (b58Char d) := by
    rw [List.head?_reverse]; exact hlast
  obtain ⟨l, hl⟩ : ∃ l, (toB58Rev n).reverse = b58Char d :: l := by
    cases hrev : (toB58Rev n).reverse with
    | nil => rw [hrev] at hhead; cases hhead
    | cons y l =>
      rw [hrev] at hhead
      simp only [List.head?_cons, Option.some.injEq] at hhead
      exact ⟨l, by rw [hhead]⟩
  rw [hl]
  exact countLeadingOnes_cons_ne (b58Char_ne_one d hd58 hd0) l

/-! ### Big-endian byte conversion lemmas -/

theorem beBytesToNat_lt :
    ∀ (b : List Nat), (∀ x ∈ b, x < 256) → beBytesToNat b < 256 ^ b.length := by
  intro b
  induction b with
  | nil => intro _; simp [beBytesToNat]
  | cons x rest ih =>
    intro hb
    have hx : x < 256 := hb x (by simp)
    have hr : beBytesToNat rest < 256 ^ rest.length :=
      ih (fun y hy => hb y (List.mem_cons_of_mem _ hy))
    show x * 256 ^ rest.length + beBytesToNat rest < 256 ^ (rest.length + 1)
    have hpow : 256 ^ (rest.length + 1) = 256 ^ rest.length * 256 := pow_succ 256 rest.length
    have hP : 0 < 256 ^ rest.length := Nat.pos_pow_of_pos _ (by decide)
    calc x * 256 ^ rest.length + beBytesToNat rest
        < x * 256 ^ rest.length + 256 ^ rest.length := by omega
      _ = (x + 1) * 256 ^ rest.length := by ring
      _ ≤ 256 * 256 ^ rest.length := Nat.mul_le_mul_right _ (by omega)
      _ = 256 ^ (rest.length + 1) := by rw [hpow]; ring

theorem natToBeBytes_beBytesToNat :
    ∀ (b : List Nat), (∀ x ∈ b, x < 256) → natToBeBytes b.length (beBytesToNat b) = b := by
  intro b
  induction b with
  | nil => intro _; rfl
  | cons x rest ih =>
    intro hb
    have hr : beBytesToNat rest < 256 ^ rest.length :=
      beBytesToNat_lt rest (fun y hy => hb y (List.mem_cons_of_mem _ hy))
    have hP : 0 < 256 ^ rest.length := Nat.pos_pow_of_pos _ (by decide)
    show (x * 256 ^ rest.length + beBytesToNat rest) / 256 ^ rest.length ::
        natToBeBytes rest.length ((x * 256 ^ rest.length + beBytesToNat rest) % 256 ^ rest.length)
      = x :: rest
    have hdiv : (x * 256 ^ rest.length + beBytesToNat rest) / 256 ^ rest.length = x := by
      rw [Nat.mul_comm x, Nat.mul_add_div hP, Nat.div_eq_of_lt hr]
      omega
    have hmod : (x * 256 ^ rest.length + beBytesToNat rest) % 256 ^ rest.length
        = beBytesToNat rest := by
      rw [Nat.mul_comm x, Nat.mul_add_mod, Nat.mod_eq_of_lt hr]
    rw [hdiv, hmod, ih (fun y hy => hb y (List.mem_cons_of_mem _ hy))]

theorem natToBeBytes_zero : ∀ (w : Nat), natToBeBytes w 0 = List.replicate w 0 := by
  intro w
  induction w with
  | zero => rfl
  | succ w ih =>
    show 0 / 256 ^ w :: natToBeBytes w (0 % 256 ^ w) = List.replicate (w + 1) 0
    rw [Nat.zero_div, Nat.zero_mod, ih, List.replicate_succ]

theorem natToBeBytes_length : ∀ (w n : Nat), (natToBeBytes w n).length = w := by
  intro w
  induction w with
  | zero => intro n; rfl
  | succ w ih => intro n; simp [natToBeBytes, ih]

/-! ### Leading-zero-byte lemmas -/

theorem countLeadingZeroBytes_le_length (b : List Nat) :
    countLeadingZeroBytes b ≤ b.length := by
  induction b with
  | nil => simp [countLeadingZeroBytes]
  | cons x rest ih =>
    by_cases h : x = 0
    · simp [countLeadingZeroBytes, h]; omega
    · simp [countLeadingZeroBytes, h]

theorem eq_replicate_zero_of_count_eq_length :
    ∀ (b : List Nat), countLeadingZeroBytes b = b.length → b = List.replicate b.length 0 := by
  intro b
  induction b with
  | nil => intro _; rfl
  | cons x rest ih =>
    intro h
    by_cases hx : x = 0
    · subst hx
      have h2 : countLeadingZeroBytes rest = rest.length := by
        simp [countLeadingZeroBytes] at h
        omega
      simp only [List.length_cons, List.replicate_succ]
      exact congrArg _ (ih h2)
    · exfalso
      simp only [countLeadingZeroBytes, if_neg hx, List.length_cons] at h
      omega

theorem replicate_zero_append_drop (b : List Nat) :
    b = List.replicate (countLeadingZeroBytes b) 0 ++ b.drop (countLeadingZeroBytes b) := by
  induction b with
  | nil => rfl
  | cons x rest ih =>
    by_cases hx : x = 0
    · subst hx
      simp only [countLeadingZeroBytes, if_pos rfl, List.replicate_succ, List.cons_append,
        List.drop_succ_cons]
      exact congrArg _ ih
    · simp [countLeadingZeroBytes, hx]

theorem beBytesToNat_replicate_zero_append :
    ∀ (k : Nat) (t : List Nat), beBytesToNat (List.replicate k 0 ++ t) = beBytesToNat t := by
  intro k
  induction k with
  | zero => intro t; rfl
  | succ k ih =>
    intro t
    rw [List.replicate_succ, List.cons_append]
    show 0 * 256 ^ (List.replicate k 0 ++ t).length + beBytesToNat (List.replicate k 0 ++ t)
      = beBytesToNat t
    rw [Nat.zero_mul, Nat.zero_add, ih]

theorem beBytesToNat_ne_zero :
    ∀ (b : List Nat), countLeadingZeroBytes b < b.length → ¬ beBytesToNat b = 0 := by
  intro b
  induction b with
  | nil => intro h; simp at h
  | cons x rest ih =>
    intro h
    by_cases hx : x = 0
    · subst hx
      have h2 : countLeadingZeroBytes rest < rest.length := by
        simp [countLeadingZeroBytes] at h
        omega
      have := ih h2
      show ¬ 0 * 256 ^ rest.length + beBytesToNat rest = 0
      omega
    · show ¬ x * 256 ^ rest.length + beBytesToNat rest = 0
      have hP : 0 < 256 ^ rest.length := Nat.pos_pow_of_pos _ (by decide)
      have : 0 < x * 256 ^ rest.length := Nat.mul_pos (Nat.pos_of_ne_zero hx) hP
      omega

/-! ### Decomposing `decode` -/

theorem decode_unfold (s : List Char) (hne : ¬ s = []) :
    decode s =
      match decodeLoop (List.enumFrom 0 s) (countLeadingOnes s) 0 with
      | .error e => .error e
      | .ok num =>
        if countLeadingOnes s > 22 then .error (.InvalidBase58 .tooManyLeadingOnes)
        else .ok (natToBeBytes 16 num) := by
  unfold decode
  rw [if_neg (by simpa [List.isEmpty_iff] using hne)]

theorem decodeLoop_run (k : Nat) (t : List Char) (hv : ∀ c ∈ t, validChar c = true) :
    decodeLoop (List.enumFrom 0 (List.replicate k '1' ++ t)) k 0 =
      checkedAccum (t.map digitOf) 0 := by
  rw [decodeLoop_skip k 0 t k 0 (by omega)]
  exact decodeLoop_valid_eq t (0 + k) k 0 (by omega) hv

theorem decodeLoop_eq_checkedAccum (s : List Char)
    (hv : ∀ c ∈ s.drop (countLeadingOnes s), validChar c = true) :
    decodeLoop (List.enumFrom 0 s) (countLeadingOnes s) 0 =
      checkedAccum ((s.drop (countLeadingOnes s)).map digitOf) 0 := by
  conv_lhs =>
    rw [show List.enumFrom 0 s
        = List.enumFrom 0 (List.replicate (countLeadingOnes s) '1'
            ++ s.drop (countLeadingOnes s)) from by rw [← replicate_append_drop s]]
  exact decodeLoop_run (countLeadingOnes s) _ hv

theorem impliedValue_drop (s : List Char) :
    impliedValue s = valFold 0 ((s.drop (countLeadingOnes s)).map digitOf) := by
  conv_lhs => rw [impliedValue, replicate_append_drop s]
  rw [List.map_append, List.map_replicate, digitOf_one, valFold_append, valFold_zero_replicate]

/-! ### The shape of `encode` on not-all-zero input -/

theorem encode_all_zero (data : List Nat) (hz : countLeadingZeroBytes data = 16) :
    encode data = List.replicate 22 '1' := by
  unfold encode
  rw [if_pos hz]

theorem encode_of_not_all_zero (data : List Nat)
    (hnz : ¬ countLeadingZeroBytes data = 16) :
    encode data = List.replicate
        (if countLeadingZeroBytes data + (toB58Rev (beBytesToNat data)).length < 22
         then 22 - (toB58Rev (beBytesToNat data)).length
         else countLeadingZeroBytes data) '1'
      ++ (toB58Rev (beBytesToNat data)).reverse := by
  unfold encode
  rw [if_neg hnz]
  simp only [List.reverse_append, List.reverse_replicate, List.length_reverse,
    List.length_append, List.length_replicate]
  by_cases hlt : countLeadingZeroBytes data + (toB58Rev (beBytesToNat data)).length < 22
  · rw [if_pos hlt, if_pos hlt, ← List.append_assoc, ← List.replicate_add]
    congr 2
    omega
  · rw [if_neg hlt, if_neg hlt]

/-- For `lz < 16` leading zero bytes, a 16-byte value below `256 ^ (16 - lz)`
has at most `22 - lz` base-58 digits (checked for each of the 16 cases). -/
theorem pow_bound : ∀ lz, lz < 16 → 256 ^ (16 - lz) ≤ 58 ^ (22 - lz) := by decide

theorem encode_digits_bound (data : List Nat) (h16 : data.length = 16)
    (hb : ∀ x ∈ data, x < 256) (hnz : ¬ countLeadingZeroBytes data = 16) :
    (toB58Rev (beBytesToNat data)).length + countLeadingZeroBytes data ≤ 22 := by
  have hle : countLeadingZeroBytes data ≤ 16 := h16 ▸ countLeadingZeroBytes_le_length data
  have hlz : countLeadingZeroBytes data < 16 := by omega
  have hval : beBytesToNat data = beBytesToNat (data.drop (countLeadingZeroBytes data)) := by
    conv_lhs => rw [replicate_zero_append_drop data]
    rw [beBytesToNat_replicate_zero_append]
  have hdlen : (data.drop (countLeadingZeroBytes data)).length = 16 - countLeadingZeroBytes data := by
    rw [List.length_drop, h16]
  have hlt : beBytesToNat data < 256 ^ (16 - countLeadingZeroBytes data) := by
    rw [hval, ← hdlen]
    exact beBytesToNat_lt _ (fun y hy => hb y (List.mem_of_mem_drop hy))
  have hlt58 : beBytesToNat data < 58 ^ (22 - countLeadingZeroBytes data) :=
    Nat.lt_of_lt_of_le hlt (pow_bound _ hlz)
  have := toB58Rev_length_le (22 - countLeadingZeroBytes data) _ hlt58
  omega

/-! ### The round-trip and fixed-width helpers (shared by several claims) -/

theorem decode_replicate_ones : decode (List.replicate 22 '1') = .ok (List.replicate 16 0) := by
  have hne : ¬ List.replicate 22 '1' = ([] : List Char) := by simp
  rw [decode_unfold _ hne]
  have hcnt : countLeadingOnes (List.replicate 22 '1') = 22 := by
    have h2 := countLeadingOnes_replicate_append 22 []
    rw [List.append_nil] at h2
    rw [h2, countLeadingOnes]
  rw [hcnt]
  have hskip := decodeLoop_skip 22 0 [] 22 0 (by omega)
  simp only [List.append_nil] at hskip
  rw [hskip]
  show (if 22 > 22 then _ else Except.ok (natToBeBytes 16 0)) = _
  rw [if_neg (by omega), natToBeBytes_zero]

theorem decode_encode (data : List Nat) (h16 : data.length = 16)
    (hb : ∀ x ∈ data, x < 256) :
    decode (encode data) = .ok data := by
  by_cases hz : countLeadingZeroBytes data = 16
  · rw [encode_all_zero data hz, decode_replicate_ones]
    have := eq_replicate_zero_of_count_eq_length data (by omega)
    rw [h16] at this
    rw [← this]
  · have hne0 : ¬ beBytesToNat data = 0 :=
      beBytesToNat_ne_zero data (by
        have := countLeadingZeroBytes_le_length data
        omega)
    have hstruct := encode_of_not_all_zero data hz
    set n := beBytesToNat data with hn
    set K := (if countLeadingZeroBytes data + (toB58Rev n).length < 22
         then 22 - (toB58Rev n).length
         else countLeadingZeroBytes data) with hK
    have hDne : ¬ (toB58Rev n).reverse = [] := by
      simpa using toB58Rev_ne_nil n hne0
    have hne : ¬ encode data = [] := by
      rw [hstruct]
      simp [hDne]
    have hcnt : countLeadingOnes (encode data) = K := by
      rw [hstruct, countLeadingOnes_replicate_append,
        countLeadingOnes_toB58Rev_reverse n hne0]
      omega
    have hKle : K ≤ 22 := by
      have := h16 ▸ countLeadingZeroBytes_le_length data
      rw [hK]
      split
      · omega
      · omega
    rw [decode_unfold _ hne, hcnt]
    have hv : ∀ c ∈ (toB58Rev n).reverse, validChar c = true := by
      intro c hc
      exact toB58Rev_valid n c (List.mem_reverse.mp hc)
    have hloop : decodeLoop (List.enumFrom 0 (encode data)) K 0 =
        checkedAccum (((toB58Rev n).reverse).map digitOf) 0 := by
      conv_lhs => rw [hstruct]
      rw [decodeLoop_skip K 0 _ K 0 (by omega)]
      exact decodeLoop_valid_eq _ _ _ 0 (by omega) hv
    have hvalue : valFold 0 (((toB58Rev n).reverse).map digitOf) = n := by
      rw [List.map_reverse]
      exact valFold_toB58Rev n
    have hnlt : n < 2 ^ 128 := by
      have h1 : n < 256 ^ data.length := beBytesToNat_lt data hb
      rw [h16] at h1
      have : (256 : Nat) ^ 16 = 2 ^ 128 := by norm_num
      omega
    rw [hloop, checkedAccum_ok _ _ (by rw [hvalue]; exact hnlt), hvalue]
    show (if K > 22 then _ else Except.ok (natToBeBytes 16 n)) = _
    rw [if_neg (by omega)]
    have := natToBeBytes_beBytesToNat data hb
    rw [h16] at this
    rw [hn, this]

theorem encode_length_eq (data : List Nat) (h16 : data.length = 16)
    (hb : ∀ x ∈ data, x < 256) : (encode data).length = 22 := by
  by_cases hz : countLeadingZeroBytes data = 16
  · rw [encode_all_zero data hz, List.length_replicate]
  · have hbound := encode_digits_bound data h16 hb hz
    rw [encode_of_not_all_zero data hz]
    rw [List.length_append, List.length_replicate, List.length_reverse]
    split
    · omega
    · omega

theorem encode_mem_alphabet (data : List Nat) :
    ∀ c ∈ encode data, c ∈ BASE58_CHARS := by
  by_cases hz : countLeadingZeroBytes data = 16
  · rw [encode_all_zero data hz]
    intro c hc
    rw [List.eq_of_mem_replicate hc]
    decide
  · rw [encode_of_not_all_zero data hz]
    intro c hc
    rcases List.mem_append.mp hc with hc1 | hc2
    · rw [List.eq_of_mem_replicate hc1]
      decide
    · exact toB58Rev_mem_alphabet _ c (List.mem_reverse.mp hc2)

/-- If all characters of `p` are valid and their accumulation stays within
128 bits, the loop reaches the invalid character `c` right after `p` and
rejects it, naming its position. -/
theorem decodeLoop_prefix_invalid :
    ∀ (p : List Char) (j lo num : Nat) (c : Char) (rest : List Char), lo ≤ j →
      (∀ d ∈ p, validChar d = true) → validChar c = false →
      valFold num (p.map digitOf) < 2 ^ 128 →
      decodeLoop (List.enumFrom j (p ++ c :: rest)) lo num =
        .error (.InvalidBase58 (.invalidChar (j + p.length) c)) := by
  intro p
  induction p with
  | nil =>
    intro j lo num c rest hle _ hinv _
    have hskip : ¬ (c = '1' ∧ j < lo) := by
      rintro ⟨-, hlt⟩; omega
    simp only [List.nil_append, List.enumFrom_cons, decodeLoop, if_neg hskip]
    by_cases hascii : c.toNat < 128
    · have hdig : digitOf c = 255 := by
        simp [validChar, hascii] at hinv
        exact hinv
      rw [if_neg (not_not_intro hascii), if_pos hdig]
      simp
    · rw [if_pos hascii]
      simp
  | cons d p ih =>
    intro j lo num c rest hle hv hinv hof
    have hd : validChar d = true := hv d (by simp)
    have hascii : d.toNat < 128 := of_decide_eq_true (Bool.and_elim_left hd)
    have hdig : ¬ digitOf d = 255 := of_decide_eq_true (Bool.and_elim_right hd)
    have hskip : ¬ (d = '1' ∧ j < lo) := by
      rintro ⟨-, hlt⟩; omega
    rw [List.map_cons, valFold_cons] at hof
    have hstep : num * 58 + digitOf d < 2 ^ 128 :=
      Nat.lt_of_le_of_lt (le_valFold _ _) hof
    simp only [List.cons_append, List.enumFrom_cons, decodeLoop, if_neg hskip,
      if_neg (not_not_intro hascii), if_neg hdig]
    rw [if_neg (by omega), if_neg (by omega)]
    rw [show p.append (c :: rest) = p ++ c :: rest from rfl]
    rw [ih (j + 1) lo (num * 58 + digitOf d) c rest (by omega)
      (fun x hx => hv x (List.mem_cons_of_mem _ hx)) hinv hof]
    have harith : j + 1 + p.length = j + (d :: p).length := by
      simp [List.length_cons]
      omega
    rw [harith]

/-!
## Claims

Each claim of the specification is settled by one theorem below.
-/

/-- C1: for every 16-byte array `b`, encoding to Base58 and decoding the
result recovers exactly the original bytes: `decode (encode b) = Ok b`. -/
theorem claim1_roundtrip (b : List Nat) (h16 : b.length = 16)
    (hb : ∀ x ∈ b, x < 256) : decode (encode b) = .ok b :=
  decode_encode b h16 hb

theorem claim1_roundtrip_witness :
    decode (encode [0x55, 0x0e, 0x84, 0x00, 0xe2, 0x9b, 0x41, 0xd4,
                    0xa7, 0x16, 0x44, 0x66, 0x55, 0x44, 0x00, 0x00])
      = .ok [0x55, 0x0e, 0x84, 0x00, 0xe2, 0x9b, 0x41, 0xd4,
             0xa7, 0x16, 0x44, 0x66, 0x55, 0x44, 0x00, 0x00] :=
  claim1_roundtrip _ (by decide) (by decide)

/-- C2: for every 16-byte array `b`, `encode b` is a string of exactly 22
characters, each drawn from the 58-symbol Base58 alphabet. -/
theorem claim2_fixed_width (b : List Nat) (h16 : b.length = 16)
    (hb : ∀ x ∈ b, x < 256) :
    (encode b).length = 22 ∧ ∀ c ∈ encode b, c ∈ BASE58_CHARS :=
  ⟨encode_length_eq b h16 hb, encode_mem_alphabet b⟩

theorem claim2_fixed_width_witness :
    (encode [1, 2, 3, 4, 5, 6, 7, 8, 9, 10, 11, 12, 13, 14, 15, 16]).length = 22 ∧
      ∀ c ∈ encode [1, 2, 3, 4, 5, 6, 7, 8, 9, 10, 11, 12, 13, 14, 15, 16],
        c ∈ BASE58_CHARS :=
  claim2_fixed_width _ (by decide) (by decide)

/-- C3 (as written) is false: a run of more than 22 leading `'1'` characters
is not always reported as malformed-Base58, because the run test runs only
after the accumulation loop.  With 23 leading ones followed by 22 `'z'`
characters the accumulation overflows first and `decode` answers `Overflow`,
not the malformed-Base58 error. -/
theorem claim3_counterexample :
    decode (List.replicate 23 '1' ++ List.replicate 22 'z') = .error .Overflow ∧
      ¬ decode (List.replicate 23 '1' ++ List.replicate 22 'z')
          = .error (.InvalidBase58 .tooManyLeadingOnes) := by
  decide

/-- C3 (amended): every input whose leading-`'1'` run exceeds 22 is rejected
(never `Ok`); the specific error is malformed-Base58 "too many leading
ones" whenever the characters outside the run are all valid and their value
fits in 128 bits — otherwise the loop reports its own error first. -/
theorem claim3_leading_ones_cap (s : List Char) (h : 22 < countLeadingOnes s) :
    ∃ e, decode s = .error e ∧
      ((∀ c ∈ s, validChar c = true) → impliedValue s < 2 ^ 128 →
        e = .InvalidBase58 .tooManyLeadingOnes) := by
  have hne : ¬ s = [] := by
    intro h0
    rw [h0] at h
    simp [countLeadingOnes] at h
  rw [decode_unfold s hne]
  cases hres : decodeLoop (List.enumFrom 0 s) (countLeadingOnes s) 0 with
  | error e =>
    refine ⟨e, rfl, fun hv hlt => ?_⟩
    exfalso
    rw [decodeLoop_eq_checkedAccum s (fun c hc => hv c (List.mem_of_mem_drop hc))] at hres
    rw [impliedValue_drop] at hlt
    rw [checkedAccum_ok _ 0 hlt] at hres
    cases hres
  | ok num =>
    exact ⟨.InvalidBase58 .tooManyLeadingOnes, by simp [h], fun _ _ => rfl⟩

theorem claim3_leading_ones_cap_witness :
    ∃ e, decode (List.replicate 23 '1') = .error e ∧
      ((∀ c ∈ List.replicate 23 '1', validChar c = true) →
        impliedValue (List.replicate 23 '1') < 2 ^ 128 →
          e = .InvalidBase58 .tooManyLeadingOnes) :=
  claim3_leading_ones_cap _ (by decide)

/-- C4: every nonempty all-alphabet input whose implied base-58 integer
exceeds `2 ^ 128 - 1` is rejected with `Overflow` (never wrapped or
truncated); in particular 22 repetitions of `'z'` (see the witness). -/
theorem claim4_overflow (s : List Char) (hne : ¬ s = [])
    (hv : ∀ c ∈ s, validChar c = true) (hof : 2 ^ 128 ≤ impliedValue s) :
    decode s = .error .Overflow := by
  rw [decode_unfold s hne,
    decodeLoop_eq_checkedAccum s (fun c hc => hv c (List.mem_of_mem_drop hc))]
  rw [impliedValue_drop] at hof
  rw [checkedAccum_overflow _ 0 (by positivity) hof]

theorem claim4_overflow_witness :
    decode (List.replicate 22 'z') = .error .Overflow :=
  claim4_overflow _ (by decide) (by decide) (by decide)

/-- C5 (as written) is false: an invalid character after the leading-`'1'`
run is not always reported, because the overflow check runs per character
and can fire before the offending character is reached.  With 22 `'z'`
characters followed by `'0'` (an excluded character) `decode` answers
`Overflow`, not a malformed-Base58 error naming position 22. -/
theorem claim5_counterexample :
    decode (List.replicate 22 'z' ++ ['0']) = .error .Overflow ∧
      validChar '0' = false := by
  decide

/-- C5 (amended): for every input with an invalid character after the
leading-`'1'` run, if the valid characters before the first invalid one
accumulate without 128-bit overflow, `decode` rejects with malformed-Base58
naming the offending position and character (and `decode` always returns a
value — the model is a total function into `Except`). -/
theorem claim5_invalid_char (s : List Char) (m : Nat) (c : Char)
    (hget : (s.drop (countLeadingOnes s))[m]? = some c)
    (hc : validChar c = false)
    (hpre : ∀ d ∈ (s.drop (countLeadingOnes s)).take m, validChar d = true)
    (hof : valFold 0 (((s.drop (countLeadingOnes s)).take m).map digitOf) < 2 ^ 128) :
    decode s = .error (.InvalidBase58 (.invalidChar (countLeadingOnes s + m) c)) := by
  have hne : ¬ s = [] := by
    intro h0
    rw [h0] at hget
    simp at hget
  obtain ⟨hm, hgetc⟩ := List.getElem?_eq_some.mp hget
  have hdecomp : s.drop (countLeadingOnes s)
      = (s.drop (countLeadingOnes s)).take m
        ++ c :: (s.drop (countLeadingOnes s)).drop (m + 1) := by
    conv_lhs => rw [← List.take_append_drop m (s.drop (countLeadingOnes s))]
    rw [List.drop_eq_getElem_cons hm, hgetc]
  rw [decode_unfold s hne]
  have hloop : decodeLoop (List.enumFrom 0 s) (countLeadingOnes s) 0
      = .error (.InvalidBase58 (.invalidChar (countLeadingOnes s + m) c)) := by
    conv_lhs =>
      rw [show List.enumFrom 0 s
          = List.enumFrom 0 (List.replicate (countLeadingOnes s) '1'
              ++ s.drop (countLeadingOnes s)) from by rw [← replicate_append_drop s]]
    rw [decodeLoop_skip (countLeadingOnes s) 0 _ _ 0 (by omega)]
    conv_lhs => rw [hdecomp]
    rw [decodeLoop_prefix_invalid _ _ _ _ _ _ (by omega) hpre hc hof]
    have : 0 + countLeadingOnes s + ((s.drop (countLeadingOnes s)).take m).length
        = countLeadingOnes s + m := by
      rw [List.length_take]
      omega
    rw [this]
  rw [hloop]

theorem claim5_invalid_char_witness :
    decode ['2', '0']
      = .error (.InvalidBase58 (.invalidChar (countLeadingOnes ['2', '0'] + 1) '0')) :=
  claim5_invalid_char ['2', '0'] 1 '0' (by decide) (by decide) (by decide) (by decide)

/-- C9: `decode` imposes no length requirement: every nonempty all-alphabet
input whose leading-`'1'` run is at most 22 and whose implied base-58
integer fits in 128 bits decodes to the 16-byte big-endian representation
of that integer, whatever the input length. -/
theorem claim9_any_length (s : List Char) (hne : ¬ s = [])
    (hv : ∀ c ∈ s, validChar c = true) (hlo : countLeadingOnes s ≤ 22)
    (hlt : impliedValue s < 2 ^ 128) :
    decode s = .ok (natToBeBytes 16 (impliedValue s)) := by
  rw [decode_unfold s hne,
    decodeLoop_eq_checkedAccum s (fun c hc => hv c (List.mem_of_mem_drop hc))]
  rw [impliedValue_drop] at hlt ⊢
  rw [checkedAccum_ok _ 0 hlt]
  have h22 : ¬ countLeadingOnes s > 22 := by omega
  simp [h22]

theorem claim9_any_length_witness :
    decode ['2'] = .ok [0, 0, 0, 0, 0, 0, 0, 0, 0, 0, 0, 0, 0, 0, 0, 1] :=
  (claim9_any_length ['2'] (by decide) (by decide) (by decide) (by decide)).trans
    (by decide)

/-- C10: `decode` is not injective on accepted inputs: prepending `'1'` to
any accepted string whose leading-`'1'` run is shorter than 22 yields a
distinct string that decodes to the same identifier. -/
theorem claim10_prepend_one (s : List Char) (b : List Nat)
    (hok : decode s = .ok b) (hlt : countLeadingOnes s < 22) :
    decode ('1' :: s) = .ok b := by
  have hne : ¬ s = [] := by
    intro h0
    subst h0
    simp [decode] at hok
  rw [decode_unfold s hne] at hok
  cases hres : decodeLoop (List.enumFrom 0 s) (countLeadingOnes s) 0 with
  | error e => rw [hres] at hok; cases hok
  | ok num =>
    rw [hres] at hok
    have hok2 : (if countLeadingOnes s > 22
        then Except.error (B58UUIDError.InvalidBase58 B58Msg.tooManyLeadingOnes)
        else Except.ok (natToBeBytes 16 num)) = Except.ok b := hok
    rw [if_neg (by omega : ¬ countLeadingOnes s > 22)] at hok2
    have hsplit := replicate_append_drop s
    have hres2 : decodeLoop (List.enumFrom 0 (List.replicate (countLeadingOnes s) '1'
        ++ s.drop (countLeadingOnes s))) (countLeadingOnes s) 0 = .ok num := by
      rw [← hsplit]
      exact hres
    rw [decodeLoop_skip (countLeadingOnes s) 0 _ _ 0 (by omega)] at hres2
    have hvalid : ∀ c ∈ s.drop (countLeadingOnes s), validChar c = true :=
      decodeLoop_ok_valid _ (0 + countLeadingOnes s) (countLeadingOnes s) 0 num
        (by omega) hres2
    have haccum : checkedAccum ((s.drop (countLeadingOnes s)).map digitOf) 0 = .ok num := by
      rw [← decodeLoop_valid_eq _ (0 + countLeadingOnes s) (countLeadingOnes s) 0
        (by omega) hvalid]
      exact hres2
    have hne2 : ¬ ('1' :: s) = [] := by simp
    rw [decode_unfold _ hne2]
    have hcnt2 : countLeadingOnes ('1' :: s) = countLeadingOnes s + 1 := by
      simp [countLeadingOnes]
    rw [hcnt2]
    have hshape : '1' :: s = List.replicate (countLeadingOnes s + 1) '1'
        ++ s.drop (countLeadingOnes s) := by
      conv_lhs => rw [hsplit]
      rw [List.replicate_succ]
      rfl
    rw [show List.enumFrom 0 ('1' :: s)
        = List.enumFrom 0 (List.replicate (countLeadingOnes s + 1) '1'
            ++ s.drop (countLeadingOnes s)) from by rw [← hshape]]
    rw [decodeLoop_run _ _ hvalid, haccum]
    show (if countLeadingOnes s + 1 > 22
        then Except.error (B58UUIDError.InvalidBase58 B58Msg.tooManyLeadingOnes)
        else Except.ok (natToBeBytes 16 num)) = Except.ok b
    rw [if_neg (by omega : ¬ countLeadingOnes s + 1 > 22)]
    exact hok2

theorem claim10_prepend_one_witness :
    decode ['1', '2'] = .ok [0, 0, 0, 0, 0, 0, 0, 0, 0, 0, 0, 0, 0, 0, 0, 1] :=
  claim10_prepend_one ['2'] [0, 0, 0, 0, 0, 0, 0, 0, 0, 0, 0, 0, 0, 0, 0, 1]
    (by decide) (by decide)

/-! ### The generator's bit fiddling -/

set_option maxRecDepth 4000 in
/-- `(b & 0x0F) | 0x40` on a byte (checked over all 256 byte values). -/
theorem land_lor_version : ∀ a, a < 256 → (Nat.land a 15).lor 64 = a % 16 + 64 := by
  decide

set_option maxRecDepth 4000 in
/-- `(b & 0x3F) | 0x80` on a byte (checked over all 256 byte values). -/
theorem land_lor_variant : ∀ a, a < 256 → (Nat.land a 63).lor 128 = a % 64 + 128 := by
  decide

/-- C8: for every 16-byte entropy value, `generate` produces a 22-character
Base58 string that decodes to a 16-byte value whose byte 6 has top nibble
`0100` (version 4) and whose byte 8 has top two bits `10` (variant),
whatever the entropy bytes were. -/
theorem claim8_generate (e : List Nat) (h16 : e.length = 16)
    (hb : ∀ x ∈ e, x < 256) :
    (generate e).length = 22 ∧
      ∃ bs, decode (generate e) = .ok bs ∧ bs.length = 16 ∧
        bs.getD 6 0 / 16 = 4 ∧ bs.getD 8 0 / 64 = 2 := by
  have h6 : (6 : Nat) < e.length := by omega
  have h8e : (8 : Nat) < e.length := by omega
  have he6 : e.getD 6 0 < 256 := by
    rw [List.getD_eq_getElem e 0 h6]
    exact hb _ (List.getElem_mem h6)
  set v6 := (Nat.land (e.getD 6 0) 15).lor 64 with hv6
  set b1 := e.set 6 v6 with hb1
  have hb1len : b1.length = 16 := by rw [hb1, List.length_set, h16]
  have h8 : (8 : Nat) < b1.length := by omega
  have hb18 : b1.getD 8 0 = e.getD 8 0 := by
    rw [List.getD_eq_getElem?_getD, List.getD_eq_getElem?_getD, hb1,
      List.getElem?_set_ne (by omega : (6 : Nat) ≠ 8)]
  have he8 : e.getD 8 0 < 256 := by
    rw [List.getD_eq_getElem e 0 h8e]
    exact hb _ (List.getElem_mem h8e)
  set v8 := (Nat.land (b1.getD 8 0) 63).lor 128 with hv8
  set bs := b1.set 8 v8 with hbs
  have hgen : generate e = encode bs := rfl
  have hv6val : v6 = e.getD 6 0 % 16 + 64 := land_lor_version _ he6
  have hv8val : v8 = e.getD 8 0 % 64 + 128 := by
    rw [hv8, hb18]
    exact land_lor_variant _ he8
  have hbslen : bs.length = 16 := by rw [hbs, List.length_set, hb1len]
  have hbsmem : ∀ x ∈ bs, x < 256 := by
    intro x hx
    rcases List.mem_or_eq_of_mem_set hx with hx1 | rfl
    · rcases List.mem_or_eq_of_mem_set hx1 with hx2 | rfl
      · exact hb x hx2
      · rw [hv6val]; omega
    · rw [hv8val]; omega
  refine ⟨by rw [hgen]; exact encode_length_eq bs hbslen hbsmem, bs, ?_, hbslen, ?_, ?_⟩
  · rw [hgen]
    exact decode_encode bs hbslen hbsmem
  · have : bs.getD 6 0 = v6 := by
      rw [List.getD_eq_getElem?_getD, hbs, List.getElem?_set_ne (by omega : (8 : Nat) ≠ 6),
        hb1, List.getElem?_set_self h6, Option.getD_some]
    rw [this, hv6val]
    omega
  · have : bs.getD 8 0 = v8 := by
      rw [List.getD_eq_getElem?_getD, hbs, List.getElem?_set_self h8, Option.getD_some]
    rw [this, hv8val]
    omega

theorem claim8_generate_witness :
    (generate (List.replicate 16 0)).length = 22 ∧
      ∃ bs, decode (generate (List.replicate 16 0)) = .ok bs ∧ bs.length = 16 ∧
        bs.getD 6 0 / 16 = 4 ∧ bs.getD 8 0 / 64 = 2 :=
  claim8_generate _ (by decide) (by decide)

/-! ### The UUID text adapter (`encode_uuid`), modelled on UTF-8 bytes -/

/-- UTF-8 encoding of a Unicode scalar value (a Rust `char`). -/
def utf8Bytes (c : Char) : List Nat :=
  let n := c.toNat
  if n < 128 then [n]
  else if n < 2048 then [192 + n / 64, 128 + n % 64]
  else if n < 65536 then [224 + n / 4096, 128 + n / 64 % 64, 128 + n % 64]
  else [240 + n / 262144, 128 + n / 4096 % 64, 128 + n / 64 % 64, 128 + n % 64]

/-- The UTF-8 byte string of a Rust `&str` (a Rust `String` stores exactly
the UTF-8 bytes of its characters; `.len()` counts these bytes). -/
def strBytes (s : List Char) : List Nat := s.flatMap utf8Bytes

/-- A UTF-8 continuation byte (`0b10xxxxxx`).  In a valid UTF-8 string a
byte offset is a character boundary iff it is the end of the string or the
byte at that offset is not a continuation byte. -/
def isCont (b : Nat) : Bool := decide (128 ≤ b) && decide (b < 192)

def headCont : List Nat → Bool
  | [] => false
  | r :: _ => isCont r

/-- Hex digit value of an ASCII byte, as accepted by
`u8::from_str_radix(_, 16)` (case-insensitive). -/
def hexDigitVal (b : Nat) : Option Nat :=
  if 48 ≤ b ∧ b ≤ 57 then some (b - 48)
  else if 65 ≤ b ∧ b ≤ 70 then some (b - 55)
  else if 97 ≤ b ∧ b ≤ 102 then some (b - 87)
  else none

/-- `u8::from_str_radix(slice, 16)` on a two-byte slice: two hex digits, or
a leading `'+'` (byte 43, which `from_str_radix` strips for unsigned types)
followed by one hex digit; anything else is a parse error. -/
def pairVal (b0 b1 : Nat) : Option Nat :=
  if b0 = 43 then hexDigitVal b1
  else
    match hexDigitVal b0, hexDigitVal b1 with
    | some v0, some v1 => some (16 * v0 + v1)
    | _, _ => none

/-- The hex-parsing loop of `encode_uuid` (src/lib.rs lines 254-266) over
the UTF-8 bytes of the hyphen-free string.  Iteration `i` slices bytes
`[2i, 2i+2)`: Rust string slicing panics (modelled as `none`) when a slice
end is not a character boundary — for valid UTF-8 exactly when the first
sliced byte, or the byte right after the slice, is a continuation byte —
and otherwise `u8::from_str_radix` either yields the byte value or fails
with `InvalidUUID` naming byte position `2 * i`.  `fuel` counts the
remaining iterations of `for i in 0..16`; under the length-32 guard the
list is exhausted exactly when `fuel` reaches 0, so the sub-two-byte
fallback (also `none`) is never taken. -/
def parseHexLoop : Nat → Nat → List Nat → Option (Except B58UUIDError (List Nat))
  | 0, _, _ => some (.ok [])
  | fuel + 1, i, bytes =>
    match bytes with
    | b0 :: b1 :: rest =>
      if isCont b0 then none
      else if headCont rest then none
      else
        match pairVal b0 b1 with
        | none => some (.error (.InvalidUUID (2 * i)))
        | some v =>
          match parseHexLoop fuel (i + 1) rest with
          | none => none
          | some (.error e) => some (.error e)
          | some (.ok vs) => some (.ok (v :: vs))
    | _ => none

/-- Model of `encode_uuid` (src/lib.rs lines 244-269): remove every hyphen
(`replace('-', "")`), test the UTF-8 byte length against 32, then parse the
16 two-byte groups and encode.  `none` models the slicing panic on inputs
whose byte 2i or 2i+2 falls inside a multi-byte character. -/
def encode_uuid (uuid_str : List Char) : Option (Except B58UUIDError (List Char)) :=
  let cleaned := uuid_str.filter (fun c => ¬ c = '-')
  let cbytes := strBytes cleaned
  if ¬ cbytes.length = 32 then some (.error (.InvalidLength 32 cbytes.length))
  else
    match parseHexLoop 16 0 cbytes with
    | none => none
    | some (.error e) => some (.error e)
    | some (.ok bytes) => some (.ok (encode bytes))

/-- Claim-side relation: two characters equal up to the case of a hex
letter (`A`-`F` at bytes 65-70 versus `a`-`f` at bytes 97-102). -/
def hexCaseEq (c d : Char) : Bool :=
  c = d
    || (decide (65 ≤ c.toNat) && decide (c.toNat ≤ 70) && decide (d.toNat = c.toNat + 32))
    || (decide (65 ≤ d.toNat) && decide (d.toNat ≤ 70) && decide (c.toNat = d.toNat + 32))

/-- Claim-side relation: equal length and pointwise `hexCaseEq`. -/
def hexCaseListEq : List Char → List Char → Bool
  | [], [] => true
  | c :: cs, d :: ds => hexCaseEq c d && hexCaseListEq cs ds
  | _, _ => false

/-- The byte-level shadow of `hexCaseEq`. -/
def byteCaseEq (a b : Nat) : Prop :=
  a = b ∨ (65 ≤ a ∧ a ≤ 70 ∧ b = a + 32) ∨ (65 ≤ b ∧ b ≤ 70 ∧ a = b + 32)

/-! ### Case-insensitivity congruences -/

theorem byteCaseEq_isCont {a b : Nat} (h : byteCaseEq a b) : isCont a = isCont b := by
  rcases h with rfl | ⟨h1, h2, rfl⟩ | ⟨h1, h2, rfl⟩
  · rfl
  · have ha : isCont a = false := by simp [isCont]; omega
    have hb : isCont (a + 32) = false := by simp [isCont]; omega
    rw [ha, hb]
  · have ha : isCont b = false := by simp [isCont]; omega
    have hb : isCont (b + 32) = false := by simp [isCont]; omega
    rw [ha, hb]

theorem byteCaseEq_hexDigitVal {a b : Nat} (h : byteCaseEq a b) :
    hexDigitVal a = hexDigitVal b := by
  rcases h with rfl | ⟨h1, h2, rfl⟩ | ⟨h1, h2, rfl⟩
  · rfl
  · interval_cases a <;> rfl
  · interval_cases b <;> rfl

theorem byteCaseEq_pairVal {a a2 b b2 : Nat} (ha : byteCaseEq a a2)
    (hb : byteCaseEq b b2) : pairVal a b = pairVal a2 b2 := by
  have h43 : a = 43 ↔ a2 = 43 := by
    rcases ha with rfl | ⟨h1, h2, rfl⟩ | ⟨h1, h2, rfl⟩
    · exact Iff.rfl
    · constructor <;> (intro hx; omega)
    · constructor <;> (intro hx; omega)
  unfold pairVal
  by_cases hx : a = 43
  · rw [if_pos hx, if_pos (h43.mp hx), byteCaseEq_hexDigitVal hb]
  · rw [if_neg hx, if_neg (fun h2 => hx (h43.mpr h2)),
      byteCaseEq_hexDigitVal ha, byteCaseEq_hexDigitVal hb]

theorem headCont_congr : ∀ {r1 r2 : List Nat},
    List.Forall₂ byteCaseEq r1 r2 → headCont r1 = headCont r2 := by
  intro r1 r2 h
  cases h with
  | nil => rfl
  | cons h0 _ => exact byteCaseEq_isCont h0

theorem parseHexLoop_congr :
    ∀ (fuel i : Nat) (b1 b2 : List Nat), List.Forall₂ byteCaseEq b1 b2 →
      parseHexLoop fuel i b1 = parseHexLoop fuel i b2 := by
  intro fuel
  induction fuel with
  | zero => intro i b1 b2 _; rfl
  | succ fuel ih =>
    intro i b1 b2 hrel
    cases hrel with
    | nil => rfl
    | cons h0 htail =>
      cases htail with
      | nil => rfl
      | cons h1 hrest =>
        simp only [parseHexLoop]
        rw [byteCaseEq_isCont h0, headCont_congr hrest, byteCaseEq_pairVal h0 h1,
          ih (i + 1) _ _ hrest]

theorem utf8Bytes_hexCaseEq {c d : Char} (h : hexCaseEq c d = true) :
    List.Forall₂ byteCaseEq (utf8Bytes c) (utf8Bytes d) := by
  simp only [hexCaseEq, Bool.or_eq_true, Bool.and_eq_true, decide_eq_true_eq] at h
  rcases h with (h | ⟨⟨h1, h2⟩, h3⟩) | ⟨⟨h1, h2⟩, h3⟩
  · rw [h]
    exact List.forall₂_same.mpr (fun a _ => Or.inl rfl)
  · have hc : utf8Bytes c = [c.toNat] := by
      unfold utf8Bytes
      rw [if_pos (by omega)]
    have hd : utf8Bytes d = [d.toNat] := by
      unfold utf8Bytes
      rw [if_pos (by omega)]
    rw [hc, hd]
    exact List.Forall₂.cons (Or.inr (Or.inl ⟨h1, h2, h3⟩)) List.Forall₂.nil
  · have hc : utf8Bytes c = [c.toNat] := by
      unfold utf8Bytes
      rw [if_pos (by omega)]
    have hd : utf8Bytes d = [d.toNat] := by
      unfold utf8Bytes
      rw [if_pos (by omega)]
    rw [hc, hd]
    exact List.Forall₂.cons (Or.inr (Or.inr ⟨h1, h2, h3⟩)) List.Forall₂.nil

theorem strBytes_hexCaseListEq :
    ∀ (u v : List Char), hexCaseListEq u v = true →
      List.Forall₂ byteCaseEq (strBytes u) (strBytes v) := by
  intro u
  induction u with
  | nil =>
    intro v h
    cases v with
    | nil => exact List.Forall₂.nil
    | cons d ds => cases h
  | cons c cs ih =>
    intro v h
    cases v with
    | nil => cases h
    | cons d ds =>
      simp only [hexCaseListEq, Bool.and_eq_true] at h
      show List.Forall₂ byteCaseEq ((c :: cs).flatMap utf8Bytes) ((d :: ds).flatMap utf8Bytes)
      rw [List.flatMap_cons, List.flatMap_cons]
      exact List.rel_append (utf8Bytes_hexCaseEq h.1) (ih ds h.2)

/-- C6: `encode_uuid` is hyphen-insensitive and hex-case-insensitive: two
inputs whose hyphen-free characters agree up to the case of hex letters
produce the same result (the same Base58 text, the same error, or the same
slicing panic). -/
theorem claim6_hyphen_case_insensitive (u v : List Char)
    (h : hexCaseListEq (u.filter (fun c => ¬ c = '-'))
      (v.filter (fun c => ¬ c = '-')) = true) :
    encode_uuid u = encode_uuid v := by
  have hrel := strBytes_hexCaseListEq _ _ h
  have hlen := hrel.length_eq
  unfold encode_uuid
  by_cases h32 : (strBytes (u.filter (fun c => ¬ c = '-'))).length = 32
  · have h32v : (strBytes (v.filter (fun c => ¬ c = '-'))).length = 32 := by
      rw [← hlen]
      exact h32
    rw [if_neg (not_not_intro h32), if_neg (not_not_intro h32v)]
    rw [parseHexLoop_congr 16 0 _ _ hrel]
  · have h32v : ¬ (strBytes (v.filter (fun c => ¬ c = '-'))).length = 32 := by
      rw [← hlen]
      exact h32
    rw [if_pos h32, if_pos h32v, hlen]

theorem claim6_hyphen_case_insensitive_witness :
    encode_uuid "550E8400-E29B-41D4-A716-446655440000".toList
      = encode_uuid "550e8400e29b41d4a716446655440000".toList :=
  claim6_hyphen_case_insensitive _ _ (by decide)

/-- C7: every input whose hyphen-free remainder is not exactly 32 bytes
long is rejected with the wrong-length error recording expected 32 and the
actual count, before any hex parsing. -/
theorem claim7_wrong_length (s : List Char)
    (h : ¬ (strBytes (s.filter (fun c => ¬ c = '-'))).length = 32) :
    encode_uuid s = some (.error (.InvalidLength 32
      (strBytes (s.filter (fun c => ¬ c = '-'))).length)) := by
  unfold encode_uuid
  rw [if_pos h]

theorem claim7_wrong_length_witness :
    encode_uuid "550e8400".toList = some (.error (.InvalidLength 32 8)) :=
  (claim7_wrong_length "550e8400".toList (by decide)).trans (by decide)
